import Mathlib

/-!
Verification of the telnet-go codec, session and I/O layer.

The Go source is shallowly embedded: the wire is a `List Nat` of byte
values, the buffered reader state is the remaining wire list, and the
underlying transport writer is an ideal sink that accepts every byte
(so `LongWrite` against it writes everything; error behaviour of the
underlying writer is modelled separately for the `LongWrite` claims).
`bufio.Reader.Buffered() < 1` is modelled as "the remaining wire list
is empty", which matches a transport that has delivered the whole
stream into the buffer.
-/

/-- Wire constant from reader.go. -/
def ECHO : Nat := 1

/-- Wire constant from reader.go. -/
def SGA : Nat := 3

/-- Wire constant from reader.go (new line). -/
def NL : Nat := 10

/-- Wire constant from reader.go (carriage return). -/
def CR : Nat := 13

/-- Wire constant from reader.go. -/
def LINEMODE : Nat := 34

/-- Wire constant from reader.go. -/
def SE : Nat := 240

/-- Wire constant from reader.go. -/
def SB : Nat := 250

/-- Wire constant from reader.go. -/
def WILL : Nat := 251

/-- Wire constant from reader.go. -/
def WONT : Nat := 252

/-- Wire constant from reader.go. -/
def DO : Nat := 253

/-- Wire constant from reader.go. -/
def DONT : Nat := 254

/-- Wire constant from reader.go (interpret as command / escape byte). -/
def IAC : Nat := 255

/-- Modelled from the spec: the NAWS option byte (RFC 1073, value 31).
The declaration of this constant is not present under src/; only its
uses in `Session.RequestWindowSize` are. -/
def NAWS : Nat := 31

/-- Errors surfaced by the embedded reader: end of stream (io.EOF and
the other bufio shortage errors collapse to this) and the
`errors.New("corrupted")` protocol error from reader.Read. -/
inductive TErr where
  | eof : TErr
  | corrupted : TErr
deriving DecidableEq, Repr

/-- The inner `case SB:` loop of reader.Read (src/reader.go): starting
with the SB byte still buffered, read bytes until an IAC immediately
followed by SE; an IAC followed by IAC consumes both and continues;
an IAC followed by anything else leaves the peeked byte for the next
iteration. Returns the remaining stream after the IAC SE terminator,
or `none` when the stream runs out (a read/peek error). -/
def skipSB : List Nat → Option (List Nat)
  | [] => none
  | [_] => none
  | b2 :: p :: rest2 =>
    if b2 = IAC then
      if p = IAC then skipSB rest2
      else if p = SE then some rest2
      else skipSB (p :: rest2)
    else skipSB (p :: rest2)

/-- `skipSB` consumes at least one byte when it succeeds. -/
def skipSB_lt : ∀ (l r : List Nat), skipSB l = some r → r.length < l.length
  | [], _, h => by simp [skipSB] at h
  | [_], _, h => by simp [skipSB] at h
  | b2 :: p :: rest2, r, h => by
    rw [skipSB] at h
    by_cases h1 : b2 = IAC
    · rw [if_pos h1] at h
      by_cases h2 : p = IAC
      · rw [if_pos h2] at h
        have := skipSB_lt rest2 r h
        simp only [List.length_cons]
        omega
      · rw [if_neg h2] at h
        by_cases h3 : p = SE
        · rw [if_pos h3] at h
          injection h with h
          subst h
          simp only [List.length_cons]
          omega
        · rw [if_neg h3] at h
          have := skipSB_lt (p :: rest2) r h
          simp only [List.length_cons] at this ⊢
          omega
    · rw [if_neg h1] at h
      have := skipSB_lt (p :: rest2) r h
      simp only [List.length_cons] at this ⊢
      omega

/-- The loop body of reader.Read (src/reader.go, lines 60-132).
`input` is the remaining buffered wire stream, `cap` the free space in
the caller's `data` slice, `started` records whether `n > 0` already.
Returns (application bytes produced, remaining wire stream, error).
The `n > 0 && Buffered() < 1` break is the `started` test against an
empty stream. -/
def readAux (input : List Nat) (cap : Nat) (started : Bool) :
    List Nat × List Nat × Option TErr :=
  match input, cap with
  | inp, 0 => ([], inp, none)
  | [], _ + 1 => if started then ([], [], none) else ([], [], some TErr.eof)
  | b :: rest, c + 1 =>
    if b = IAC then
      match rest with
      | [] => ([], [], some TErr.eof)
      | p :: rest2 =>
        if p = WILL ∨ p = WONT ∨ p = DO ∨ p = DONT then
          match rest2 with
          | [] => ([], [], some TErr.eof)
          | _ :: rest3 => readAux rest3 (c + 1) started
        else if p = IAC then
          let r := readAux rest2 c true
          (IAC :: r.1, r.2)
        else if p = SB then
          match hsb : skipSB (p :: rest2) with
          | none => ([], [], some TErr.eof)
          | some rest4 => readAux rest4 (c + 1) started
        else if p = SE then
          readAux rest2 (c + 1) started
        else ([], p :: rest2, some TErr.corrupted)
    else
      let r := readAux rest c true
      (b :: r.1, r.2)
termination_by input.length
decreasing_by
  · simp_arith
  · simp_arith
  · have hlt := skipSB_lt _ _ (by assumption)
    simp only [List.length_cons] at hlt ⊢
    omega
  · simp_arith
  · simp_arith

/-- reader.Read (src/reader.go): one call on the remaining wire stream
`input` with a destination buffer of length `cap`. -/
def readerRead (input : List Nat) (cap : Nat) : List Nat × List Nat × Option TErr :=
  readAux input cap false

/-- commandSignature (src/writer.go): the IAC x4 marker that
writer.Write treats as "this is a command". -/
def commandSignature : List Nat := [IAC, IAC, IAC, IAC]

/-- The data loop of writer.Write (src/writer.go): non-IAC bytes are
buffered; at each IAC the buffer is flushed, the two-byte escape
sequence `EscapeIAC` is written and `n` is incremented by one; the
buffer is flushed once more at the end. The underlying writer is the
ideal sink, so every `LongWrite` in the loop writes all its bytes.
Returns (wire bytes written, reported n). -/
def writeLoop : List Nat → List Nat → List Nat × Nat
  | [], buffer => (buffer, buffer.length)
  | value :: rest, buffer =>
    if value = IAC then
      let r := writeLoop rest []
      (buffer ++ [IAC, IAC] ++ r.1, buffer.length + 1 + r.2)
    else writeLoop rest (buffer ++ [value])

/-- writer.Write (src/writer.go): data of length greater than 5 that
starts with the four-byte command signature is passed raw (minus the
signature) to the underlying writer; all other data goes through the
escaping loop. Returns (wire bytes written, reported n). -/
def writerWrite (data : List Nat) : List Nat × Nat :=
  if 5 < data.length ∧ data.take 4 = commandSignature then
    (data.drop 4, (data.drop 4).length)
  else writeLoop data []

/-- WriteCommand (src/writer.go): submits the command signature plus
the three command bytes through writer.Write. -/
def WriteCommand (command opt action : Nat) : List Nat × Nat :=
  writerWrite (commandSignature ++ [command, opt, action])

/-- The escaped encoding described by the spec: every escape byte 255
in the input is doubled on the wire, every other byte passes through
unchanged, in order. Used to compare writer.Write against its spec. -/
def escapeData : List Nat → List Nat
  | [] => []
  | b :: rest => if b = IAC then IAC :: IAC :: escapeData rest else b :: escapeData rest

/-- Errors an underlying writer may return: `short` is io.ErrShortWrite
(retried by LongWrite), `hard` is any other non-nil error. -/
inductive WErr where
  | short : WErr
  | hard : WErr
deriving DecidableEq, Repr

/-- LongWrite (src/io.go): the retry loop. The underlying writer's
behaviour is `b`, mapping (call index, requested length) to the
(n, err) it returns. `rem` is `len(p)`, `acc` the running total.
`fuel` bounds the number of loop iterations; `none` means the loop has
not terminated within `fuel` iterations (the Go loop has no bound, so
divergence is exactly "no fuel suffices"). -/
def longWriteFuel (fuel : Nat) (b : Nat → Nat → Nat × Option WErr)
    (k rem acc : Nat) : Option (Nat × Option WErr) :=
  if rem = 0 then some (acc, none)
  else
    match fuel with
    | 0 => none
    | fuel' + 1 =>
      let r := b k rem
      if r.2 = some WErr.hard then some (acc + r.1, some WErr.hard)
      else longWriteFuel fuel' b (k + 1) (rem - r.1) (acc + r.1)

/-- The LongWrite loop on behaviour `b` and input length `rem` never
exits: no iteration bound suffices. -/
def longWriteDiverges (b : Nat → Nat → Nat × Option WErr) (rem : Nat) : Prop :=
  ∀ fuel, longWriteFuel fuel b 0 rem 0 = none

/-- The trailing strip of ReadLine (src/reader.go): drop one trailing
carriage-return + line-feed pair when the accumulated line ends in
one. -/
def stripCRLF (lineBytes : List Nat) : List Nat :=
  if 2 ≤ lineBytes.length ∧ lineBytes.getD (lineBytes.length - 2) 0 = CR ∧
      lineBytes.getD (lineBytes.length - 1) 0 = NL then
    lineBytes.take (lineBytes.length - 2)
  else lineBytes

/-- The loop of ReadLine (src/reader.go) over the telnet reader: pull
single bytes through reader.Read with a one-byte buffer; on
(n = 0, err = nil) retry; on (n = 0, err) return the empty line and
the error; otherwise append the byte and stop after a line feed.
`fuel` bounds the iterations; `none` means the fuel ran out (one more
iteration than the stream length always suffices, since every
iteration that continues consumes wire bytes). -/
def readLineAux : Nat → List Nat → List Nat → Option (List Nat × List Nat × Option TErr)
  | 0, _, _ => none
  | fuel + 1, stream, line =>
    let r := readerRead stream 1
    match r.1 with
    | [] =>
      match r.2.2 with
      | none => readLineAux fuel r.2.1 line
      | some e => some ([], r.2.1, some e)
    | b :: _ =>
      let line2 := line ++ [b]
      if b = NL then some (stripCRLF line2, r.2.1, none)
      else readLineAux fuel r.2.1 line2

/-- ReadLine (src/reader.go) reading from the telnet reader over wire
stream `stream`. Returns (line bytes, remaining wire, error). -/
def ReadLine (stream : List Nat) : Option (List Nat × List Nat × Option TErr) :=
  readLineAux (stream.length + 1) stream []

/-- The "skip until IAC SE" loop of Session.RequestWindowSize for an
unrelated subnegotiation: every byte is read (consumed), and after an
IAC the next byte is read and tested against SE. `none` is a read
error (stream exhausted). The one-byte case collapses the two read
failures (after IAC, or on the next loop turn) that both error. -/
def skipUnrelatedSB : List Nat → Option (List Nat)
  | [] => none
  | [_] => none
  | b :: nextB :: rest2 =>
    if b = IAC then
      if nextB = SE then some rest2 else skipUnrelatedSB rest2
    else skipUnrelatedSB (nextB :: rest2)

/-- `skipUnrelatedSB` consumes at least one byte when it succeeds. -/
def skipUnrelatedSB_lt : ∀ (l r : List Nat), skipUnrelatedSB l = some r → r.length < l.length
  | [], _, h => by simp [skipUnrelatedSB] at h
  | [_], _, h => by simp [skipUnrelatedSB] at h
  | b :: nextB :: rest2, r, h => by
    rw [skipUnrelatedSB] at h
    by_cases h1 : b = IAC
    · rw [if_pos h1] at h
      by_cases h2 : nextB = SE
      · rw [if_pos h2] at h
        injection h with h
        subst h
        simp only [List.length_cons]
        omega
      · rw [if_neg h2] at h
        have := skipUnrelatedSB_lt rest2 r h
        simp only [List.length_cons] at this ⊢
        omega
    · rw [if_neg h1] at h
      have := skipUnrelatedSB_lt (nextB :: rest2) r h
      simp only [List.length_cons] at this ⊢
      omega

/-- Session.RequestWindowSize (src/unnamed/part_003), after the DO NAWS
command has been sent: the wait loop over the buffered wire stream.
`termCols`/`termRows` are the session's current window size fields.
Returns `some (cols, rows, remaining stream)` when the Go code returns
nil, `none` when it returns an error. The 2-second timeout channel
never fires in (the model of) this loop because the whole stream is
already buffered; the io.EOF peek failure is the empty stream. -/
def requestWindowSize : List Nat → Nat → Nat → Option (Nat × Nat × List Nat)
  | [], termCols, termRows => some (termCols, termRows, [])
  | b :: rest, termCols, termRows =>
    if b = IAC then
      match rest with
      | [] => none
      | cmd :: rest2 =>
        if cmd = WILL ∨ cmd = WONT then
          match rest2 with
          | [] => none
          | opt :: rest3 =>
            if opt = NAWS ∧ cmd = WONT then some (termCols, termRows, rest3)
            else requestWindowSize rest3 termCols termRows
        else if cmd = SB then
          match rest2 with
          | [] => none
          | opt :: rest3 =>
            if opt = NAWS then
              match rest3 with
              | p0 :: p1 :: p2 :: p3 :: s0 :: s1 :: rest4 =>
                if s0 = IAC ∧ s1 = SE then
                  some (p0 <<< 8 ||| p1, p2 <<< 8 ||| p3, rest4)
                else none
              | _ => none
            else
              match hskip : skipUnrelatedSB rest3 with
              | none => none
              | some rest4 => requestWindowSize rest4 termCols termRows
        else requestWindowSize rest2 termCols termRows
    else some (termCols, termRows, b :: rest)
termination_by stream _ _ => stream.length
decreasing_by
  · simp_arith
  · have hlt := skipUnrelatedSB_lt _ _ (by assumption)
    simp only [List.length_cons] at hlt ⊢
    omega
  · simp_arith

/-- Membership predicate for plain application data: no escape byte. -/
def noIAC (l : List Nat) : Prop := ∀ b ∈ l, b ≠ IAC

instance (l : List Nat) : Decidable (noIAC l) := by
  unfold noIAC
  infer_instance

/-- The payload shape assumed by claim C4: inside the subnegotiation
payload every escape byte is doubled (an escape byte immediately
followed by SE would instead be the terminator). -/
def sbPayloadOk : List Nat → Bool
  | [] => true
  | [b] => b ≠ IAC
  | b :: p :: rest2 =>
    if b = IAC then p = IAC && sbPayloadOk rest2
    else sbPayloadOk (p :: rest2)

theorem escapeData_append (x y : List Nat) :
    escapeData (x ++ y) = escapeData x ++ escapeData y := by
  induction x with
  | nil => simp [escapeData]
  | cons b rest ih =>
    by_cases hb : b = IAC
    · simp [escapeData, hb, ih]
    · simp [escapeData, hb, ih]

theorem escapeData_noIAC (d : List Nat) (h : noIAC d) : escapeData d = d := by
  induction d with
  | nil => simp [escapeData]
  | cons b rest ih =>
    have hb : b ≠ IAC := h b (List.mem_cons_self b rest)
    have hrest : noIAC rest := fun x hx => h x (List.mem_cons_of_mem b hx)
    simp [escapeData, hb, ih hrest]

theorem escapeData_length (d : List Nat) : d.length ≤ (escapeData d).length := by
  induction d with
  | nil => simp [escapeData]
  | cons b rest ih =>
    by_cases hb : b = IAC
    · simp [escapeData, hb]
      omega
    · simp [escapeData, hb]
      omega

theorem writeLoop_escape (data : List Nat) : ∀ buffer : List Nat,
    writeLoop data buffer = (buffer ++ escapeData data, buffer.length + data.length) := by
  induction data with
  | nil => intro buffer; simp [writeLoop, escapeData]
  | cons value rest ih =>
    intro buffer
    by_cases hv : value = IAC
    · rw [writeLoop]
      simp only [if_pos hv, ih []]
      simp [escapeData, hv]
      omega
    · rw [writeLoop]
      simp only [if_neg hv, ih (buffer ++ [value])]
      simp [escapeData, hv]
      omega

theorem writerWrite_escape (data : List Nat)
    (h : ¬(5 < data.length ∧ data.take 4 = commandSignature)) :
    writerWrite data = (escapeData data, data.length) := by
  rw [writerWrite, if_neg h, writeLoop_escape data []]
  simp

theorem readAux_zero (input : List Nat) (st : Bool) :
    readAux input 0 st = ([], input, none) := by
  rw [readAux]

theorem readAux_nil_out (cap : Nat) (st : Bool) : (readAux [] cap st).1 = [] := by
  cases cap with
  | zero => rw [readAux]
  | succ c =>
    rw [readAux]
    by_cases h : st = true
    · simp [h]
    · simp at h
      simp [h]

theorem readAux_cons_plain (b : Nat) (rest : List Nat) (c : Nat) (st : Bool) (hb : b ≠ IAC) :
    readAux (b :: rest) (c + 1) st = (b :: (readAux rest c true).1, (readAux rest c true).2) := by
  rw [readAux.eq_def]
  simp only []
  rw [if_neg hb]

theorem readAux_iac_nil (c : Nat) (st : Bool) :
    readAux [IAC] (c + 1) st = ([], [], some TErr.eof) := by
  rw [readAux.eq_def]
  simp

theorem readAux_iac_iac (rest2 : List Nat) (c : Nat) (st : Bool) :
    readAux (IAC :: IAC :: rest2) (c + 1) st =
      (IAC :: (readAux rest2 c true).1, (readAux rest2 c true).2) := by
  rw [readAux.eq_def]
  simp [IAC, WILL, WONT, DO, DONT]

theorem readAux_neg (p o : Nat) (rest3 : List Nat) (c : Nat) (st : Bool)
    (hp : p = WILL ∨ p = WONT ∨ p = DO ∨ p = DONT) :
    readAux (IAC :: p :: o :: rest3) (c + 1) st = readAux rest3 (c + 1) st := by
  rcases hp with rfl | rfl | rfl | rfl
  all_goals
    rw [readAux.eq_def]
    simp [IAC, WILL, WONT, DO, DONT]

theorem readAux_sb_step (rest2 rest4 : List Nat) (c : Nat) (st : Bool)
    (h : skipSB (SB :: rest2) = some rest4) :
    readAux (IAC :: SB :: rest2) (c + 1) st = readAux rest4 (c + 1) st := by
  rw [readAux.eq_def]
  simp only []
  rw [if_pos trivial]
  rw [if_neg (by decide)]
  rw [if_neg (by decide)]
  rw [if_pos trivial]
  split
  · rename_i heq
    rw [heq] at h
    cases h
  · rename_i r4 heq
    rw [heq] at h
    injection h with h5
    rw [h5]

theorem readAux_se (rest2 : List Nat) (c : Nat) (st : Bool) :
    readAux (IAC :: SE :: rest2) (c + 1) st = readAux rest2 (c + 1) st := by
  rw [readAux.eq_def]
  simp [IAC, WILL, WONT, DO, DONT, SB, SE]

theorem readAux_corrupt (p : Nat) (rest2 : List Nat) (c : Nat) (st : Bool)
    (h1 : ¬(p = WILL ∨ p = WONT ∨ p = DO ∨ p = DONT)) (h2 : p ≠ IAC) (h3 : p ≠ SB)
    (h4 : p ≠ SE) :
    readAux (IAC :: p :: rest2) (c + 1) st = ([], p :: rest2, some TErr.corrupted) := by
  rw [readAux.eq_def]
  simp only []
  rw [if_pos trivial, if_neg h1, if_neg h2, if_neg h3, if_neg h4]

theorem readAux_escape (B : List Nat) : ∀ (rest : List Nat) (cap : Nat) (st : Bool),
    B.length ≤ cap →
    readAux (escapeData B ++ rest) cap st =
      (B ++ (readAux rest (cap - B.length) (st || !B.isEmpty)).1,
        (readAux rest (cap - B.length) (st || !B.isEmpty)).2) := by
  induction B with
  | nil =>
    intro rest cap st _
    simp [escapeData]
  | cons b B ih =>
    intro rest cap st hle
    simp only [List.length_cons] at hle
    obtain ⟨c, rfl⟩ : ∃ c, cap = c + 1 := ⟨cap - 1, by omega⟩
    have hsub : c + 1 - (B.length + 1) = c - B.length := by omega
    by_cases hb : b = IAC
    · subst hb
      rw [show escapeData (IAC :: B) = IAC :: IAC :: escapeData B by simp [escapeData]]
      rw [show (IAC :: IAC :: escapeData B) ++ rest = IAC :: IAC :: (escapeData B ++ rest) by simp]
      rw [readAux_iac_iac]
      rw [ih rest c true (by omega)]
      simp only [List.isEmpty_cons, Bool.not_false, Bool.or_true, Bool.true_or,
        List.length_cons, hsub]
      simp
    · rw [show escapeData (b :: B) = b :: escapeData B by simp [escapeData, hb]]
      rw [show (b :: escapeData B) ++ rest = b :: (escapeData B ++ rest) by simp]
      rw [readAux_cons_plain _ _ _ _ hb]
      rw [ih rest c true (by omega)]
      simp only [List.isEmpty_cons, Bool.not_false, Bool.or_true, Bool.true_or,
        List.length_cons, hsub]
      simp

theorem readerRead_plain (d : List Nat) (cap : Nat) (h : noIAC d)
    (hc : d.length ≤ cap) : (readerRead d cap).1 = d := by
  have he := readAux_escape d [] cap false hc
  rw [escapeData_noIAC d h, List.append_nil] at he
  rw [readerRead, he]
  simp [readAux_nil_out]

/-- C1 (amended): for every byte sequence B that does not trigger the
command-signature workaround of writer.Write (length greater than 5
and first four bytes equal to the escape byte 255), writing B through
writer.Write and decoding the resulting wire bytes with reader.Read
(into a buffer of at least B's length) reproduces B exactly. -/
theorem C1_round_trip (B : List Nat) (cap : Nat)
    (hsig : ¬(5 < B.length ∧ B.take 4 = commandSignature)) (hcap : B.length ≤ cap) :
    (readerRead (writerWrite B).1 cap).1 = B := by
  rw [writerWrite_escape B hsig]
  rw [readerRead]
  have he := readAux_escape B [] cap false hcap
  rw [List.append_nil] at he
  rw [he]
  simp [readAux_nil_out]

/-- C1 counterexample: for B = 255 255 255 255 0 0 (length 6, first
four bytes equal to the escape byte), writer.Write takes the
command-signature path and emits 0 0 raw, so decoding the wire does
not reproduce B. -/
theorem C1_counterexample :
    (readerRead (writerWrite [255, 255, 255, 255, 0, 0]).1 6).1
      ≠ [255, 255, 255, 255, 0, 0] := by
  have hw : (writerWrite [255, 255, 255, 255, 0, 0]).1 = [0, 0] := by decide
  rw [hw]
  have hr : (readerRead [0, 0] 6).1 = [0, 0] :=
    readerRead_plain [0, 0] 6 (by decide) (by norm_num)
  rw [hr]
  decide

theorem C1_witness :
    (readerRead (writerWrite [255, 255, 255, 255, 255]).1 5).1
      = [255, 255, 255, 255, 255] :=
  C1_round_trip [255, 255, 255, 255, 255] 5 (by decide) (by decide)

/-- C2 (amended): for every input data that does not trigger the
command-signature workaround (length greater than 5 and first four
bytes 255), writer.Write emits exactly the escaped encoding of data —
each byte 255 doubled, every other byte unchanged, in order — and
returns n equal to the number of input bytes, not wire bytes. -/
theorem C2_write_escapes (data : List Nat)
    (hsig : ¬(5 < data.length ∧ data.take 4 = commandSignature)) :
    writerWrite data = (escapeData data, data.length) :=
  writerWrite_escape data hsig

/-- C2 counterexample: for data = 255 255 255 255 0 0, writer.Write
emits 0 0 (not the escaped encoding, which would be eight 255 bytes
followed by 0 0) and returns n = 2, not len(data) = 6. -/
theorem C2_counterexample :
    writerWrite [255, 255, 255, 255, 0, 0]
      ≠ (escapeData [255, 255, 255, 255, 0, 0], 6) := by
  decide

theorem C2_witness : writerWrite [255, 7] = ([255, 255, 7], 2) := by
  rw [C2_write_escapes [255, 7] (by decide)]
  decide

/-- C3: WriteCommand writes exactly the three command bytes raw to the
underlying writer — never more, and never through the data-escaping
logic even when a byte equals the escape byte — and returns n = 3; in
particular (IAC, WILL, ECHO) produces exactly the wire bytes
255 251 1. -/
theorem C3_write_command :
    (∀ command opt action : Nat,
        WriteCommand command opt action = ([command, opt, action], 3)) ∧
      WriteCommand IAC WILL ECHO = ([255, 251, 1], 3) := by
  constructor
  · intro command opt action
    rw [WriteCommand, writerWrite, if_pos]
    · simp [commandSignature]
    · constructor
      · simp [commandSignature]
      · simp [commandSignature]
  · decide

theorem skipSB_payload : ∀ (payload suffix : List Nat), sbPayloadOk payload = true →
    skipSB (payload ++ IAC :: SE :: suffix) = some suffix
  | [], suffix, _ => by
    rw [List.nil_append, skipSB]
    simp [SE, IAC]
  | [b], suffix, h => by
    have hb : b ≠ IAC := by
      simp [sbPayloadOk] at h
      simpa using h
    rw [List.cons_append, List.nil_append, skipSB, if_neg hb]
    exact skipSB_payload [] suffix rfl
  | b :: p :: rest2, suffix, h => by
    rw [sbPayloadOk] at h
    by_cases hb : b = IAC
    · rw [if_pos hb] at h
      simp only [Bool.and_eq_true, decide_eq_true_eq] at h
      obtain ⟨hp, hok⟩ := h
      subst hb
      subst hp
      rw [List.cons_append, List.cons_append, skipSB]
      rw [if_pos rfl, if_pos rfl]
      exact skipSB_payload rest2 suffix hok
    · rw [if_neg hb] at h
      rw [List.cons_append, List.cons_append, skipSB, if_neg hb]
      have := skipSB_payload (p :: rest2) suffix h
      rw [List.cons_append] at this
      exact this

theorem readAux_sb_block (payload suffix : List Nat) (c : Nat) (st : Bool)
    (h : sbPayloadOk payload = true) :
    readAux (IAC :: SB :: (payload ++ IAC :: SE :: suffix)) (c + 1) st =
      readAux suffix (c + 1) st := by
  apply readAux_sb_step
  rw [show SB :: (payload ++ IAC :: SE :: suffix)
      = (SB :: payload) ++ IAC :: SE :: suffix from rfl]
  apply skipSB_payload
  cases payload with
  | nil => decide
  | cons q qs =>
    rw [sbPayloadOk, if_neg (by decide)]
    exact h

/-- C4: for a wire stream prefix ++ IAC SB payload IAC SE ++ suffix
where the prefix and suffix are plain data and every escape byte
inside the payload is doubled, reader.Read consumes the whole
bracketed subnegotiation and produces no application bytes for it: a
doubled escape inside the payload does not end the subnegotiation, and
decoding resumes on the following bytes, so the output is exactly
prefix ++ suffix. -/
theorem C4_subnegotiation (pre payload suf : List Nat) (cap : Nat)
    (hpre : noIAC pre) (hsuf : noIAC suf) (hpay : sbPayloadOk payload = true)
    (hcap : pre.length + suf.length ≤ cap) :
    (readerRead (pre ++ IAC :: SB :: (payload ++ IAC :: SE :: suf)) cap).1
      = pre ++ suf := by
  rw [readerRead]
  have hpre2 := readAux_escape pre (IAC :: SB :: (payload ++ IAC :: SE :: suf))
    cap false (by omega)
  rw [escapeData_noIAC pre hpre] at hpre2
  rw [hpre2]
  simp only []
  congr 1
  by_cases hz : cap - pre.length = 0
  · have hs0 : suf.length = 0 := by omega
    rw [List.length_eq_zero] at hs0
    subst hs0
    rw [hz, readAux_zero]
  · obtain ⟨c, hc1⟩ : ∃ c, cap - pre.length = c + 1 := ⟨cap - pre.length - 1, by omega⟩
    rw [hc1, readAux_sb_block payload suf c _ hpay]
    have h2 := readAux_escape suf [] (c + 1) (false || !pre.isEmpty) (by omega)
    rw [escapeData_noIAC suf hsuf, List.append_nil] at h2
    rw [h2]
    simp [readAux_nil_out]

theorem C4_witness :
    (readerRead [1, 255, 250, 255, 255, 255, 240, 2] 2).1 = [1, 2] :=
  C4_subnegotiation [1] [255, 255] [2] 2 (by decide) (by decide) (by decide)
    (by norm_num)

/-- C5: when the next two wire bytes are the escape byte 255 followed
by a byte that is none of WILL, WONT, DO, DONT, IAC, SB, SE, the next
reader.Read (with a nonempty buffer) returns the "corrupted" terminal
error with n = 0 — no application bytes — and consumes nothing past
the escape byte (no resynchronization). -/
theorem C5_corruption (x : Nat) (rest : List Nat) (cap : Nat) (hcap : 1 ≤ cap)
    (hx : x ≠ WILL ∧ x ≠ WONT ∧ x ≠ DO ∧ x ≠ DONT ∧ x ≠ IAC ∧ x ≠ SB ∧ x ≠ SE) :
    readerRead (IAC :: x :: rest) cap = ([], x :: rest, some TErr.corrupted) := by
  obtain ⟨h1, h2, h3, h4, h5, h6, h7⟩ := hx
  obtain ⟨c, rfl⟩ : ∃ c, cap = c + 1 := ⟨cap - 1, by omega⟩
  rw [readerRead]
  exact readAux_corrupt x rest c false (by simp [h1, h2, h3, h4]) h5 h6 h7

theorem C5_witness : readerRead [255, 1] 1 = ([], [1], some TErr.corrupted) :=
  C5_corruption 1 [] 1 (by norm_num) (by decide)

theorem readerRead_nil (cap : Nat) (h : 1 ≤ cap) :
    readerRead [] cap = ([], [], some TErr.eof) := by
  obtain ⟨c, rfl⟩ : ∃ c, cap = c + 1 := ⟨cap - 1, by omega⟩
  rw [readerRead, readAux.eq_def]
  simp

theorem readerRead_one (b : Nat) (x : List Nat) :
    readerRead (escapeData [b] ++ x) 1 = ([b], x, none) := by
  rw [readerRead]
  have h := readAux_escape [b] x 1 false (by simp)
  simp only [List.length_singleton, Nat.sub_self, List.isEmpty_nil, readAux_zero] at h
  simpa using h

theorem readLineAux_err : ∀ (fuel : Nat) (s acc line rst : List Nat) (e : TErr),
    readLineAux fuel s acc = some (line, rst, some e) → line = [] := by
  intro fuel
  induction fuel with
  | zero =>
    intro s acc line rst e h
    simp [readLineAux] at h
  | succ f ih =>
    intro s acc line rst e h
    rw [readLineAux] at h
    simp only [] at h
    rcases hout : (readerRead s 1).1 with _ | ⟨b, bs⟩
    · rw [hout] at h
      rcases herr : (readerRead s 1).2.2 with _ | e2
      · rw [herr] at h
        exact ih _ _ _ _ _ h
      · rw [herr] at h
        simp only [Option.some.injEq, Prod.mk.injEq] at h
        exact h.1.symm
    · rw [hout] at h
      simp only [] at h
      by_cases hb : b = NL
      · rw [if_pos hb] at h
        simp at h
      · rw [if_neg hb] at h
        exact ih _ _ _ _ _ h

theorem readLineAux_line (l : List Nat) : ∀ (acc : List Nat) (fuel : Nat) (rest : List Nat),
    NL ∉ l → l.length + 1 ≤ fuel →
    readLineAux fuel (escapeData l ++ NL :: rest) acc
      = some (stripCRLF (acc ++ l ++ [NL]), rest, none) := by
  induction l with
  | nil =>
    intro acc fuel rest _ hf
    obtain ⟨f, rfl⟩ : ∃ f, fuel = f + 1 := ⟨fuel - 1, by omega⟩
    rw [readLineAux]
    have h1 : readerRead (escapeData [] ++ NL :: rest) 1 = ([NL], rest, none) := by
      have := readerRead_one NL rest
      simpa [escapeData, NL, IAC] using this
    rw [h1]
    simp only []
    rw [if_pos trivial]
    simp
  | cons b l ih =>
    intro acc fuel rest hnl hf
    obtain ⟨f, rfl⟩ : ∃ f, fuel = f + 1 := ⟨fuel - 1, by omega⟩
    have hb : b ≠ NL := by
      intro hbe
      exact hnl (hbe ▸ List.mem_cons_self b l)
    have hnl2 : NL ∉ l := fun hm => hnl (List.mem_cons_of_mem b hm)
    rw [readLineAux]
    have hsplit : escapeData (b :: l) ++ NL :: rest
        = escapeData [b] ++ (escapeData l ++ NL :: rest) := by
      rw [show b :: l = [b] ++ l from rfl, escapeData_append, List.append_assoc]
    rw [hsplit, readerRead_one]
    simp only []
    rw [if_neg hb]
    rw [ih (acc ++ [b]) f rest hnl2 (by simp only [List.length_cons] at hf; omega)]
    have hassoc : acc ++ [b] ++ l = acc ++ b :: l := by simp
    rw [hassoc]

/-- C6: ReadLine accumulates single decoded bytes until a line feed is
produced and returns the line with one trailing carriage-return +
line-feed pair stripped when present (a bare line feed is kept
verbatim, via stripCRLF); and whenever the underlying Read terminates
with an error (including end of stream) before a line feed is
produced, ReadLine returns that error with the empty string, never
partial text. -/
theorem C6_read_line (l rest s line rst : List Nat) (e : TErr)
    (hnl : NL ∉ l) (herr : ReadLine s = some (line, rst, some e)) :
    ReadLine (escapeData l ++ NL :: rest) = some (stripCRLF (l ++ [NL]), rest, none)
      ∧ line = [] := by
  constructor
  · rw [ReadLine]
    have hlen : l.length + 1 ≤ (escapeData l ++ NL :: rest).length + 1 := by
      have := escapeData_length l
      simp only [List.length_append, List.length_cons]
      omega
    have h := readLineAux_line l [] _ rest hnl hlen
    simpa using h
  · exact readLineAux_err _ _ _ _ _ _ herr

theorem C6_witness :
    ReadLine [97, 13, 10] = some ([97], [], none) ∧ ([] : List Nat) = [] := by
  have h := C6_read_line [97, 13] [] [] [] [] TErr.eof (by decide)
    (by
      rw [ReadLine, List.length_nil, readLineAux]
      rw [readerRead_nil 1 (by norm_num)])
  constructor
  · have h1 := h.1
    have he : escapeData [97, 13] ++ NL :: ([] : List Nat) = [97, 13, 10] := by decide
    have hs : stripCRLF ([97, 13] ++ [NL]) = [97] := by decide
    rw [he, hs] at h1
    exact h1
  · exact h.2
theorem shiftLeft_lor_add : ∀ (n a b : Nat), b < 2 ^ n → a <<< n ||| b = a * 2 ^ n + b := by
  intro n
  induction n with
  | zero =>
    intro a b hb
    have hb0 : b = 0 := by omega
    subst hb0
    simp
  | succ n ih =>
    intro a b hb
    have hx2 : a <<< (n + 1) = 2 * (a <<< n) := Nat.shiftLeft_succ a n
    have hxeven : a <<< (n + 1) % 2 = 0 := by omega
    have hdiv : (a <<< (n + 1) ||| b) / 2 = (a <<< n) ||| (b / 2) := by
      rw [Nat.or_div_two]
      congr 1
      omega
    have hpow : 2 ^ (n + 1) = 2 * 2 ^ n := by ring
    have hb2 : b / 2 < 2 ^ n := by omega
    have hih := ih a (b / 2) hb2
    have hmod_iff : (a <<< (n + 1) ||| b) % 2 = 1 ↔ (a <<< (n + 1)) % 2 = 1 ∨ b % 2 = 1 :=
      Nat.or_mod_two_eq_one
    have hmodlt : (a <<< (n + 1) ||| b) % 2 < 2 := Nat.mod_lt _ (by norm_num)
    have hself : 2 * ((a <<< (n + 1) ||| b) / 2) + (a <<< (n + 1) ||| b) % 2
        = a <<< (n + 1) ||| b := Nat.div_add_mod _ 2
    rw [hdiv, hih] at hself
    omega

/-- C10: while RequestWindowSize waits for the NAWS reply, if the next
available wire byte is not the escape byte 255, it immediately returns
nil without consuming that byte and without changing the stored window
size, so the byte remains available to subsequent reads. -/
theorem C10_naws_non_iac (b : Nat) (rest : List Nat) (c0 r0 : Nat) (hb : b ≠ IAC) :
    requestWindowSize (b :: rest) c0 r0 = some (c0, r0, b :: rest) := by
  rw [requestWindowSize.eq_def]
  simp only []
  rw [if_neg hb]

/-- C7: after DO NAWS is sent, a peer reply IAC WILL NAWS followed by
IAC SB NAWS w-hi w-lo h-hi h-lo IAC SE makes RequestWindowSize return
nil and store width = 256*w-hi + w-lo and height = 256*h-hi + h-lo on
the session. -/
theorem C7_naws (whi wlo hhi hlo : Nat) (rest : List Nat) (c0 r0 : Nat)
    (hw : wlo < 256) (hh : hlo < 256) :
    requestWindowSize (IAC :: WILL :: NAWS :: IAC :: SB :: NAWS :: whi :: wlo :: hhi :: hlo
        :: IAC :: SE :: rest) c0 r0
      = some (256 * whi + wlo, 256 * hhi + hlo, rest) := by
  have h256 : (2 : Nat) ^ 8 = 256 := by norm_num
  rw [requestWindowSize.eq_def]
  simp only []
  rw [if_pos trivial]
  rw [if_pos (by decide)]
  rw [if_neg (by decide)]
  rw [requestWindowSize.eq_def]
  simp only []
  rw [if_pos trivial]
  rw [if_neg (by decide)]
  rw [if_pos trivial]
  rw [if_pos trivial]
  rw [if_pos (by decide)]
  rw [shiftLeft_lor_add 8 whi wlo (by omega)]
  rw [shiftLeft_lor_add 8 hhi hlo (by omega)]
  rw [h256]
  ring_nf

theorem C7_witness :
    requestWindowSize [255, 251, 31, 255, 250, 31, 0, 80, 0, 24, 255, 240] 0 0
      = some (80, 24, []) := by
  have h := C7_naws 0 80 0 24 [] 0 0 (by norm_num) (by norm_num)
  simpa using h

theorem C10_witness : requestWindowSize [65] 3 4 = some (3, 4, [65]) :=
  C10_naws_non_iac 65 [] 3 4 (by decide)

theorem longWrite_total (b : Nat → Nat → Nat × Option WErr)
    (hconf : ∀ k m, (b k m).1 ≤ m)
    (hprog : ∀ k m, 0 < m → 0 < (b k m).1 ∨ (b k m).2 = some WErr.hard) :
    ∀ rem fuel k acc : Nat, rem ≤ fuel →
      longWriteFuel fuel b k rem acc = some (acc + rem, none) ∨
        ∃ m, m ≤ rem ∧ longWriteFuel fuel b k rem acc = some (acc + m, some WErr.hard) := by
  intro rem
  induction rem using Nat.strong_induction_on with
  | _ rem ih =>
    intro fuel k acc hle
    by_cases hr : rem = 0
    · subst hr
      left
      rw [longWriteFuel.eq_def]
      simp
    · obtain ⟨f, rfl⟩ : ∃ f, fuel = f + 1 := ⟨fuel - 1, by omega⟩
      rw [longWriteFuel, if_neg hr]
      simp only []
      by_cases hh : (b k rem).2 = some WErr.hard
      · rw [if_pos hh]
        right
        exact ⟨(b k rem).1, hconf k rem, rfl⟩
      · rw [if_neg hh]
        have hpos : 0 < (b k rem).1 := by
          rcases hprog k rem (by omega) with h | h
          · exact h
          · exact absurd h hh
        have hlt : rem - (b k rem).1 < rem := by omega
        rcases ih (rem - (b k rem).1) hlt f (k + 1) (acc + (b k rem).1) (by omega)
          with h | ⟨m, hm, h⟩
        · left
          rw [h]
          have he : acc + (b k rem).1 + (rem - (b k rem).1) = acc + rem := by
            have := hconf k rem
            omega
          rw [he]
        · right
          refine ⟨(b k rem).1 + m, ?hb, ?he⟩
          case hb =>
            have := hconf k rem
            omega
          case he =>
            rw [h, Nat.add_assoc]

/-- C8 (amended): for every underlying writer behaviour whose writes
never claim more bytes than requested and always either make forward
progress or fail with a hard (non-short-write) error, LongWrite
terminates within len(p) iterations and either flushes all pending
bytes, returning a total of len(p) and nil, or stops at the hard error
with the partial total. (The original claim's "for every underlying
writer behaviour ... the call terminates" is refuted by
C8_counterexample: a writer that keeps returning (0, ErrShortWrite)
makes the loop spin forever.) -/
theorem C8_long_write (b : Nat → Nat → Nat × Option WErr) (plen : Nat)
    (hconf : ∀ k m, (b k m).1 ≤ m)
    (hprog : ∀ k m, 0 < m → 0 < (b k m).1 ∨ (b k m).2 = some WErr.hard) :
    longWriteFuel plen b 0 plen 0 = some (plen, none) ∨
      ∃ m, m ≤ plen ∧ longWriteFuel plen b 0 plen 0 = some (m, some WErr.hard) := by
  have h := longWrite_total b hconf hprog plen plen 0 0 (le_refl plen)
  simpa using h

/-- C8 counterexample: against an underlying writer that always
returns (0, io.ErrShortWrite), the LongWrite loop on a one-byte input
never terminates — no iteration bound suffices. -/
theorem C8_counterexample : longWriteDiverges (fun _ _ => (0, some WErr.short)) 1 := by
  have gen : ∀ fuel k acc,
      longWriteFuel fuel (fun _ _ => (0, some WErr.short)) k 1 acc = none := by
    intro fuel
    induction fuel with
    | zero =>
      intro k acc
      rw [longWriteFuel.eq_def]
      simp
    | succ f ih =>
      intro k acc
      rw [longWriteFuel.eq_def, if_neg (by norm_num)]
      simp only []
      rw [if_neg (by simp)]
      simpa using ih (k + 1) acc
  intro fuel
  exact gen fuel 0 0

theorem C8_witness :
    longWriteFuel 3 (fun _ m => (m, none)) 0 3 0 = some (3, none) ∨
      ∃ m, m ≤ 3 ∧ longWriteFuel 3 (fun _ m => (m, none)) 0 3 0
        = some (m, some WErr.hard) :=
  C8_long_write (fun _ m => (m, none)) 3 (fun _ m => le_refl m)
    (fun _ m hm => Or.inl hm)
